import Mathlib

/-!
A sequential shallow embedding of the jaeyeom/gomemocache package: the
single-flight Value cell, the generic Cache over a pluggable map, the
MultiLevelMap tree with Prune, the LRUMap backend and the random
replacement RRCache backend with a shared size counter.

Modeling conventions:
* Go interface values are embedded by dedicated inductive types; the
  int32 counters are embedded as Int.
* sync.Map and Go maps are embedded as association lists with
  first-match lookup.
* A Value cell (sync.Once plus a stored interface value) is Option
  (Option A): none means the once has not fired yet; some w means the
  once fired and left w behind, where w = none is the Go nil stored
  when the compute function panicked (sync.Once marks Do as done even
  when the supplied function panics).
* Panics are embedded as Except.error carrying a GoPanic tag; state
  mutated before a panic is kept, as in Go.
* Executions are sequentialized: each operation runs to completion
  before the next one starts, which is the setting of the claims about
  sequences of calls on one cache.  In the tree models every cell is
  therefore stored in resolved form, because a freshly inserted cell is
  resolved before the inserting operation returns; the RRCache model
  keeps explicit unresolved cells because its eviction pass can observe
  the in-flight entry.
-/

namespace Memocache

/-- The panics the package can raise: the explicit empty-path panics of
MultiLevelMap.LoadOrCall and MultiLevelMap.Prune, the type assertion
failure in findLeafNode when a stored value is not a cache node, and a
propagated failure of a caller-supplied compute function. -/
inductive GoPanic where
  | emptyPath
  | typeAssert
  | computeFailure
  deriving DecidableEq, Repr

variable {K A B : Type} [DecidableEq K]

/-- First-match lookup in an association list (a Go map or sync.Map read). -/
def mapFind : List (K × B) → K → Option B
  | [], _ => none
  | (k₁, v) :: m, k => if k₁ = k then some v else mapFind m k

/-- Replace the value of the first entry for the key, appending if the
key is absent (an in-place store through the entry obtained by lookup). -/
def mapSet : List (K × B) → K → B → List (K × B)
  | [], k, v => [(k, v)]
  | (k₁, v₁) :: m, k, v => if k₁ = k then (k, v) :: m else (k₁, v₁) :: mapSet m k v

/-- Remove every entry for the key (sync.Map.Delete and Go map delete;
reachable states never hold duplicate keys, so at most one entry goes). -/
def mapErase : List (K × B) → K → List (K × B)
  | [], _ => []
  | (k₁, v₁) :: m, k => if k₁ = k then mapErase m k else (k₁, v₁) :: mapErase m k

/-- Remove the first entry for the key (container/list Remove of the
element found through the hash index). -/
def mapEraseFirst : List (K × B) → K → List (K × B)
  | [], _ => []
  | (k₁, v₁) :: m, k => if k₁ = k then m else (k₁, v₁) :: mapEraseFirst m k

/-- A single-flight cell: Value from memocache.go.  none = the once has
not fired; some w = resolved, storing interface value w (w = none is
the nil left behind by a panicking compute function). -/
abbrev Cell (A : Type) := Option (Option A)

/-- A compute function, identified with its outcome: some v returns v,
none panics. -/
abbrev Comp (A : Type) := Option A

/-- Value.LoadOrCall: resolve the cell under the once.  Returns the
outcome seen by the caller, whether the compute function was invoked,
and the new cell state.  On a panic the once is still consumed and the
stored value stays nil. -/
def Value.LoadOrCall (c : Cell A) (f : Comp A) :
    (Except GoPanic (Option A)) × Bool × Cell A :=
  match c with
  | some w => (.ok w, false, some w)
  | none =>
    match f with
    | some v => (.ok (some v), true, some (some v))
    | none => (.error .computeFailure, true, some none)

/-- Run a sequence of resolve calls against one cell. -/
def Value.runSeq (c : Cell A) :
    List (Comp A) → List ((Except GoPanic (Option A)) × Bool) × Cell A
  | [] => ([], c)
  | f :: fs =>
    let s₁ := Value.LoadOrCall c f
    let rest := Value.runSeq s₁.2.2 fs
    ((s₁.1, s₁.2.1) :: rest.1, rest.2)

/-- The backing store of a Cache: key to cell, as held by sync.Map. -/
abbrev CacheMap (K A : Type) := List (K × Cell A)

/-- sync.Map.LoadOrStore specialised to storing a fresh empty cell:
returns the actual cell for the key and the possibly extended map. -/
def CacheMap.loadOrStoreCell (m : CacheMap K A) (k : K) : Cell A × CacheMap K A :=
  match mapFind m k with
  | some c => (c, m)
  | none => ((none : Cell A), (k, (none : Cell A)) :: m)

/-- Cache.LoadOrCall (also Map.LoadOrCall): insert-if-absent a fresh
cell, then resolve it; the resolved cell is written back in place. -/
def Cache.LoadOrCall (m : CacheMap K A) (k : K) (f : Comp A) :
    (Except GoPanic (Option A)) × Bool × CacheMap K A :=
  let s₀ := CacheMap.loadOrStoreCell m k
  let s₁ := Value.LoadOrCall s₀.1 f
  (s₁.1, s₁.2.1, mapSet s₀.2 k s₁.2.2)

/-- Cache.Delete (also Map.Delete): remove the entry for the key. -/
def Cache.Delete (m : CacheMap K A) (k : K) : CacheMap K A := mapErase m k

/-- Run a sequence of LoadOrCall calls for one key against one cache. -/
def Cache.runSeq (m : CacheMap K A) (k : K) :
    List (Comp A) → List ((Except GoPanic (Option A)) × Bool) × CacheMap K A
  | [] => ([], m)
  | f :: fs =>
    let s₁ := Cache.LoadOrCall m k f
    let rest := Cache.runSeq s₁.2.2 k fs
    ((s₁.1, s₁.2.1) :: rest.1, rest.2)

/-- LRUMap.LoadOrStore, modeled on the recency list with the front as
the most recently used end; the hash index is the implicit association
lookup.  A hit moves the existing element to the front and returns the
stored value; a miss pushes the new entry at the front and then evicts
from the back until the length is at most maxSize, which is List.take. -/
def LRUMap.LoadOrStore (l : List (K × A)) (maxSize : Nat) (k : K) (v : A) :
    A × Bool × List (K × A) :=
  match mapFind l k with
  | some w => (w, true, (k, w) :: mapEraseFirst l k)
  | none => (v, false, ((k, v) :: l).take maxSize)

/-- LRUMap.Delete: remove the entry if present.  The source first tests
whether the raw stored value is itself a nested LRUMap and clears it,
but values stored through Cache.LoadOrCall are always Value cells, so
that branch cannot fire for entries the package itself creates; the
faithful model is a plain removal. -/
def LRUMap.Delete (l : List (K × A)) (k : K) : List (K × A) :=
  mapEraseFirst l k

/-- A value stored in the plain multi-level tree: a client leaf value or
a nested Map node holding its own entries.  Cells are stored resolved
(see the header: sequential execution resolves a fresh cell before the
operation that created it returns, and the claims about this model use
non-panicking compute functions). -/
inductive MVal (K A : Type) where
  | leaf : A → MVal K A
  | node : List (K × MVal K A) → MVal K A

/-- The entry list of one plain Map node of a MultiLevelMap. -/
abbrev NodeMap (K A : Type) := List (K × MVal K A)

/-- One Map.LoadOrCall step on a node of the tree: returns the resolved
value for the key, whether the compute function ran, and the new map. -/
def nodeLoadOrCall (m : NodeMap K A) (k : K) (f : MVal K A) :
    MVal K A × Bool × NodeMap K A :=
  match mapFind m k with
  | some v => (v, false, m)
  | none => (f, true, (k, f) :: m)

/-- findLeafNode fused with the final leaf LoadOrCall: walk the path,
lazily creating intermediate nodes, and resolve the last component with
the client compute function; a leaf met during the walk raises the type
assertion panic of findLeafNode.  The tree as mutated so far is kept on
a panic, as Go mutates in place. -/
def mlmGo : NodeMap K A → A → List K → (Except GoPanic (MVal K A × Bool)) × NodeMap K A
  | m, _, [] => (.error .emptyPath, m)
  | m, f, [k] =>
    let s := nodeLoadOrCall m k (.leaf f)
    (.ok (s.1, s.2.1), s.2.2)
  | m, f, k :: k₂ :: p =>
    let s := nodeLoadOrCall m k (.node [])
    match s.1 with
    | .leaf _ => (.error .typeAssert, s.2.2)
    | .node child =>
      let r := mlmGo child f (k₂ :: p)
      (r.1, mapSet s.2.2 k (.node r.2))

/-- findLeafNode fused with the final Delete, as used by Prune: the walk
is the same lazily-creating descent as mlmGo. -/
def pruneGo : NodeMap K A → List K → (Except GoPanic Unit) × NodeMap K A
  | m, [] => (.error .emptyPath, m)
  | m, [k] => (.ok (), mapErase m k)
  | m, k :: k₂ :: p =>
    let s := nodeLoadOrCall m k (.node [])
    match s.1 with
    | .leaf _ => (.error .typeAssert, s.2.2)
    | .node child =>
      let r := pruneGo child (k₂ :: p)
      (r.1, mapSet s.2.2 k (.node r.2))

/-- MultiLevelMap state: the root cell, holding the root node once it
has been created. -/
structure MultiLevelMap (K A : Type) where
  root : Option (NodeMap K A)

/-- MultiLevelMap.LoadOrCall: panic on an empty path before touching any
state, otherwise lazily create the root and walk the path. -/
def MultiLevelMap.LoadOrCall (t : MultiLevelMap K A) (f : A) (path : List K) :
    (Except GoPanic (MVal K A × Bool)) × MultiLevelMap K A :=
  match path with
  | [] => (.error .emptyPath, t)
  | _ :: _ =>
    let r := mlmGo (t.root.getD []) f path
    (r.1, ⟨some r.2⟩)

/-- MultiLevelMap.Prune: panic on an empty path before touching any
state, otherwise lazily create the root, walk the dropped-last prefix
and delete the last component at the leaf node. -/
def MultiLevelMap.Prune (t : MultiLevelMap K A) (path : List K) :
    (Except GoPanic Unit) × MultiLevelMap K A :=
  match path with
  | [] => (.error .emptyPath, t)
  | _ :: _ =>
    let r := pruneGo (t.root.getD []) path
    (r.1, ⟨some r.2⟩)

/-- The outcome of mlmGo as a pure read of the starting tree: what value
and hit-or-miss flag a LoadOrCall at this path returns, or which panic
it raises.  Proved below to agree with mlmGo. -/
def pureObs : NodeMap K A → A → List K → Except GoPanic (MVal K A × Bool)
  | _, _, [] => .error .emptyPath
  | m, f, [k] =>
    match mapFind m k with
    | some v => .ok (v, false)
    | none => .ok (.leaf f, true)
  | m, f, k :: k₂ :: p =>
    match mapFind m k with
    | none => .ok (.leaf f, true)
    | some (.leaf _) => .error .typeAssert
    | some (.node child) => pureObs child f (k₂ :: p)

/-- The value stored at a path, if the whole path exists with nodes at
every proper prefix. -/
def findPath : NodeMap K A → List K → Option (MVal K A)
  | _, [] => none
  | m, [k] => mapFind m k
  | m, k :: k₂ :: p =>
    match mapFind m k with
    | some (.node child) => findPath child (k₂ :: p)
    | _ => none

/-- The path has no entry and the descent to it meets no leaf: the last
component is absent from its node, or the chain itself stops early at an
absent key; a leaf met on a proper prefix disqualifies the path. -/
def missOk : NodeMap K A → List K → Bool
  | _, [] => false
  | m, [k] => (mapFind m k).isNone
  | m, k :: k₂ :: p =>
    match mapFind m k with
    | none => true
    | some (.leaf _) => false
    | some (.node child) => missOk child (k₂ :: p)

/-- A value held by an RRCache cell: a client leaf or a nested RRCache
node with its own entry list.  Entries pair keys with cells, where none
is a stored but not yet resolved cell, which the eviction pass can
observe for the entry being inserted. -/
inductive RRVal (K A : Type) where
  | leaf : A → RRVal K A
  | node : List (K × Option (RRVal K A)) → RRVal K A

/-- The entry list of one RRCache map. -/
abbrev RREntries (K A : Type) := List (K × Option (RRVal K A))

/-- The state an RRCache operation threads: the entries of the node the
operation acts on and the shared size counter (int32, shared across the
whole tree). -/
structure RRState (K A : Type) where
  entries : RREntries K A
  cnt : Int

/-- RRCache configuration: maxSize ceiling, targetNum shrink target and
the pluggable random source rand.Intn. -/
structure RRCfg where
  maxSize : Int
  targetNum : Int
  intn : Int → Int

/-- RRCache.Delete: if present, decrement the shared counter and remove
the entry.  The source first tests whether the raw stored value is a
nested RRCache and clears it recursively, but values stored through
RRCache.LoadOrCall are always Value cells, so the test never passes for
entries the package itself creates; the faithful model removes without
recursing. -/
def rrDelete (s : RRState K A) (k : K) : RRState K A :=
  match mapFind s.entries k with
  | some _ => ⟨mapErase s.entries k, s.cnt - 1⟩
  | none => s

/-- One Range sweep of maybeEvict over a snapshot of the entries: for
each visited key draw from the random source and evict when the draw is
below currentSize - targetNum.  The recursive child.maybeEvict branch
of the source tests the raw stored value against a nested RRCache and
never fires for entries created by LoadOrCall, so it is absent here. -/
def rrSweep (cfg : RRCfg) : RREntries K A → RRState K A → RRState K A
  | [], s => s
  | (k, _) :: l, s =>
    let cs := s.cnt
    let r := cfg.intn cs
    rrSweep cfg l (if r < cs - cfg.targetNum then rrDelete s k else s)

/-- The maybeEvict loop: while the counter exceeds maxSize run a sweep,
giving up after 5 sweeps. -/
def rrEvictLoop (cfg : RRCfg) : Nat → RRState K A → RRState K A
  | 0, s => s
  | n + 1, s => if s.cnt > cfg.maxSize then rrEvictLoop cfg n (rrSweep cfg s.entries s) else s

/-- RRCache.maybeEvict: at most 5 sweeps. -/
def rrMaybeEvict (cfg : RRCfg) (s : RRState K A) : RRState K A :=
  rrEvictLoop cfg 5 s

/-- Store through a cell pointer: visible only while the entry is still
in the map; after an eviction removed it, the mutation of the orphaned
cell is invisible to the map. -/
def rrSetIfMem (es : RREntries K A) (k : K) (c : Option (RRVal K A)) : RREntries K A :=
  match mapFind es k with
  | some _ => mapSet es k c
  | none => es

/-- The once body of a fresh RRCache cell: increment the shared counter,
run the bounded eviction pass, then compute the value and store it into
the cell, which the map still sees only if the pass did not evict the
entry. -/
def rrResolveNew (cfg : RRCfg) (s : RRState K A) (k : K) (f : RRVal K A) :
    RRVal K A × Bool × RRState K A :=
  let s₁ := rrMaybeEvict cfg ⟨s.entries, s.cnt + 1⟩
  (f, true, ⟨rrSetIfMem s₁.entries k (some f), s₁.cnt⟩)

/-- RRCache.LoadOrCall: insert-if-absent a fresh cell, then resolve it;
a resolved cell is a hit, a fresh or unresolved cell runs the counting
and evicting once body. -/
def RRCache.LoadOrCall (cfg : RRCfg) (s : RRState K A) (k : K) (f : RRVal K A) :
    RRVal K A × Bool × RRState K A :=
  match mapFind s.entries k with
  | some (some v) => (v, false, s)
  | some none => rrResolveNew cfg s k f
  | none => rrResolveNew cfg ⟨(k, none) :: s.entries, s.cnt⟩ k f

/-- Run a sequence of leaf inserts against one RRCache node. -/
def rrRunInserts (cfg : RRCfg) (s : RRState K A) : List (K × A) → RRState K A
  | [] => s
  | (k, v) :: l => rrRunInserts cfg (RRCache.LoadOrCall cfg s k (.leaf v)).2.2 l

/-- findLeafNode over RRCache nodes fused with the final leaf
LoadOrCall, threading the shared counter. -/
def mlrrGo (cfg : RRCfg) : RRState K A → A → List K →
    (Except GoPanic (RRVal K A × Bool)) × RRState K A
  | s, _, [] => (.error .emptyPath, s)
  | s, f, [k] =>
    let r := RRCache.LoadOrCall cfg s k (.leaf f)
    (.ok (r.1, r.2.1), r.2.2)
  | s, f, k :: k₂ :: p =>
    let r := RRCache.LoadOrCall cfg s k (.node [])
    match r.1 with
    | .leaf _ => (.error .typeAssert, r.2.2)
    | .node child =>
      let d := mlrrGo cfg ⟨child, r.2.2.cnt⟩ f (k₂ :: p)
      (d.1, ⟨rrSetIfMem r.2.2.entries k (some (.node d.2.entries)), d.2.cnt⟩)

/-- findLeafNode over RRCache nodes fused with the final Delete, as used
by Prune on a tree of RRCache nodes. -/
def mlrrPrune (cfg : RRCfg) : RRState K A → List K →
    (Except GoPanic Unit) × RRState K A
  | s, [] => (.error .emptyPath, s)
  | s, [k] => (.ok (), rrDelete s k)
  | s, k :: k₂ :: p =>
    let r := RRCache.LoadOrCall cfg s k (.node [])
    match r.1 with
    | .leaf _ => (.error .typeAssert, r.2.2)
    | .node child =>
      let d := mlrrPrune cfg ⟨child, r.2.2.cnt⟩ (k₂ :: p)
      (d.1, ⟨rrSetIfMem r.2.2.entries k (some (.node d.2.entries)), d.2.cnt⟩)

/-- A MultiLevelMap whose nodes are RRCache instances sharing one size
counter: the root cell plus the shared counter. -/
structure RRMultiLevel (K A : Type) where
  root : Option (RREntries K A)
  cnt : Int

/-- MultiLevelMap.LoadOrCall over an RRCache-backed tree. -/
def RRMultiLevel.LoadOrCall (cfg : RRCfg) (t : RRMultiLevel K A) (f : A) (path : List K) :
    (Except GoPanic (RRVal K A × Bool)) × RRMultiLevel K A :=
  match path with
  | [] => (.error .emptyPath, t)
  | _ :: _ =>
    let r := mlrrGo cfg ⟨t.root.getD [], t.cnt⟩ f path
    (r.1, ⟨some r.2.entries, r.2.cnt⟩)

/-- MultiLevelMap.Prune over an RRCache-backed tree. -/
def RRMultiLevel.Prune (cfg : RRCfg) (t : RRMultiLevel K A) (path : List K) :
    (Except GoPanic Unit) × RRMultiLevel K A :=
  match path with
  | [] => (.error .emptyPath, t)
  | _ :: _ =>
    let r := mlrrPrune cfg ⟨t.root.getD [], t.cnt⟩ path
    (r.1, ⟨some r.2.entries, r.2.cnt⟩)

mutual

/-- The number of entries inside a stored value: its own map entries and
recursively those of nested nodes; a leaf holds none. -/
def RRVal.vsize : RRVal K A → Nat
  | .leaf _ => 0
  | .node es => rrSize es

/-- The total number of entries of an entry list, nested nodes included. -/
def rrSize : RREntries K A → Nat
  | [] => 0
  | (_, none) :: es => 1 + rrSize es
  | (_, some v) :: es => 1 + RRVal.vsize v + rrSize es

end

mutual

/-- The number of leaf entries inside a stored value. -/
def RRVal.leafCountV : RRVal K A → Nat
  | .leaf _ => 1
  | .node es => rrLeafCount es

/-- The number of leaf entries of an entry list, nested nodes included. -/
def rrLeafCount : RREntries K A → Nat
  | [] => 0
  | (_, none) :: es => rrLeafCount es
  | (_, some v) :: es => RRVal.leafCountV v + rrLeafCount es

end

mutual

/-- Well-formedness of a stored value: nested entry lists are well
formed. -/
def RRVal.wfV : RRVal K A → Bool
  | .leaf _ => true
  | .node es => rrWF es

/-- Well-formedness of an entry list: keys are pairwise distinct and
every cell is resolved to a well-formed value.  Every state reachable by
completed sequential operations satisfies this. -/
def rrWF : RREntries K A → Bool
  | [] => true
  | (k, c) :: es => (mapFind es k).isNone && rrCellWF c && rrWF es

/-- Well-formedness of a cell: resolved, with a well-formed value. -/
def rrCellWF : Option (RRVal K A) → Bool
  | none => false
  | some v => RRVal.wfV v

end

/-- The size contribution of a cell beyond its own entry. -/
def rrCellSize : Option (RRVal K A) → Nat
  | none => 0
  | some v => RRVal.vsize v

/-- The cell stored at a path in an RRCache tree, if the whole path
exists with resolved nodes at every proper prefix. -/
def rrFindPath : RREntries K A → List K → Option (Option (RRVal K A))
  | _, [] => none
  | es, [k] => mapFind es k
  | es, k :: k₂ :: p =>
    match mapFind es k with
    | some (some (.node child)) => rrFindPath child (k₂ :: p)
    | _ => none

/-- Deleting the entry at this path, if any, orphans nothing: the cell
there is absent, unresolved, a leaf or an empty node. -/
def rrPrunable (es : RREntries K A) (p : List K) : Bool :=
  match rrFindPath es p with
  | none => true
  | some c => rrCellSize c == 0

/-- Pairwise distinct keys of an association list, as real Go maps have;
unlike rrWF this does not constrain the stored cells, so it also holds
for the transient state that carries the in-flight unresolved cell. -/
def keysUnique : List (K × B) → Bool
  | [] => true
  | (k, _) :: m => (mapFind m k).isNone && keysUnique m

/-! Association list lemmas. -/

theorem mapFind_mapSet_self (m : List (K × B)) (k : K) (v : B) :
    mapFind (mapSet m k v) k = some v := by
  induction m with
  | nil => simp [mapSet, mapFind]
  | cons e m ih =>
    obtain ⟨k₀, v₀⟩ := e
    by_cases h : k₀ = k
    · simp [mapSet, h, mapFind]
    · simp [mapSet, h, mapFind, ih]

theorem mapFind_mapSet_ne (m : List (K × B)) (k k₁ : K) (v : B) (h : k₁ ≠ k) :
    mapFind (mapSet m k v) k₁ = mapFind m k₁ := by
  induction m with
  | nil => simp [mapSet, mapFind, h.symm]
  | cons e m ih =>
    obtain ⟨k₀, v₀⟩ := e
    by_cases he : k₀ = k
    · subst he
      simp [mapSet, mapFind, h.symm, fun hh : k₀ = k₁ => h hh.symm]
    · simp [mapSet, he, mapFind, ih]

theorem mapSet_self (m : List (K × B)) (k : K) (v : B) (h : mapFind m k = some v) :
    mapSet m k v = m := by
  induction m with
  | nil => simp [mapFind] at h
  | cons e m ih =>
    obtain ⟨k₀, v₀⟩ := e
    by_cases he : k₀ = k
    · subst he
      simp only [mapFind, if_pos] at h
      simp only [mapSet, if_pos]
      simp_all
    · simp only [mapFind, he, if_false, reduceIte] at h
      simp [mapSet, he, ih h]

theorem mapFind_mapErase_self (m : List (K × B)) (k : K) :
    mapFind (mapErase m k) k = none := by
  induction m with
  | nil => simp [mapErase, mapFind]
  | cons e m ih =>
    obtain ⟨k₀, v₀⟩ := e
    by_cases he : k₀ = k
    · simp [mapErase, he, ih]
    · simp [mapErase, he, mapFind, ih]

theorem mapFind_mapErase_ne (m : List (K × B)) (k k₁ : K) (h : k₁ ≠ k) :
    mapFind (mapErase m k) k₁ = mapFind m k₁ := by
  induction m with
  | nil => simp [mapErase]
  | cons e m ih =>
    obtain ⟨k₀, v₀⟩ := e
    by_cases he : k₀ = k
    · subst he
      simp [mapErase, mapFind, fun hh : k₀ = k₁ => h hh.symm, ih,
        if_neg (fun hh : k₀ = k₁ => h hh.symm)]
    · simp [mapErase, he, mapFind, ih]

theorem mapErase_of_find_none (m : List (K × B)) (k : K) (h : mapFind m k = none) :
    mapErase m k = m := by
  induction m with
  | nil => simp [mapErase]
  | cons e m ih =>
    obtain ⟨k₀, v₀⟩ := e
    by_cases he : k₀ = k
    · simp [mapFind, he] at h
    · simp only [mapFind, he, if_false, reduceIte] at h
      simp [mapErase, he, ih h]

theorem length_mapEraseFirst (m : List (K × B)) (k : K) (v : B)
    (h : mapFind m k = some v) :
    (mapEraseFirst m k).length + 1 = m.length := by
  induction m with
  | nil => simp [mapFind] at h
  | cons e m ih =>
    obtain ⟨k₀, v₀⟩ := e
    by_cases he : k₀ = k
    · simp [mapEraseFirst, he]
    · simp only [mapFind, he, if_false, reduceIte] at h
      simp [mapEraseFirst, he, ih h]

theorem find_ne_of_find_none (m : List (K × B)) (k : K) (h : mapFind m k = none) :
    ∀ e ∈ m, e.1 ≠ k := by
  induction m with
  | nil => simp
  | cons e₀ m ih =>
    obtain ⟨k₀, v₀⟩ := e₀
    by_cases he : k₀ = k
    · simp [mapFind, he] at h
    · simp only [mapFind, he, if_false, reduceIte] at h
      intro e hm
      rcases List.mem_cons.mp hm with h₁ | h₁
      · exact h₁ ▸ he
      · exact ih h e h₁

theorem isSome_find_of_mem (m : List (K × B)) (e : K × B) (h : e ∈ m) :
    (mapFind m e.1).isSome = true := by
  induction m with
  | nil => simp at h
  | cons e₀ m ih =>
    obtain ⟨k₀, v₀⟩ := e₀
    by_cases he : k₀ = e.1
    · simp [mapFind, he]
    · rcases List.mem_cons.mp h with h₁ | h₁
      · exact absurd (by rw [h₁]) he
      · simp [mapFind, he, ih h₁]

theorem keysUnique_mapErase (m : List (K × B)) (k : K) (h : keysUnique m = true) :
    keysUnique (mapErase m k) = true := by
  induction m with
  | nil => simp [mapErase, keysUnique]
  | cons e m ih =>
    obtain ⟨k₀, v₀⟩ := e
    simp only [keysUnique, Bool.and_eq_true, Option.isNone_iff_eq_none] at h
    by_cases he : k₀ = k
    · simp [mapErase, he, ih h.2]
    · simp only [mapErase, he, if_false, reduceIte, keysUnique, Bool.and_eq_true]
      refine ⟨?_, ih h.2⟩
      rw [mapFind_mapErase_ne m k k₀ he]
      simp [h.1]

theorem length_mapErase_of_unique (m : List (K × B)) (k : K) (v : B)
    (hu : keysUnique m = true) (h : mapFind m k = some v) :
    (mapErase m k).length + 1 = m.length := by
  induction m with
  | nil => simp [mapFind] at h
  | cons e m ih =>
    obtain ⟨k₀, v₀⟩ := e
    simp only [keysUnique, Bool.and_eq_true, Option.isNone_iff_eq_none] at hu
    by_cases he : k₀ = k
    · simp [mapErase, he, mapErase_of_find_none m k (he ▸ hu.1)]
    · simp only [mapFind, he, if_false, reduceIte] at h
      simp [mapErase, he, ih hu.2 h]

/-! Value and Cache lemmas, and claims C1, C7, C8 about them. -/

theorem Value.runSeq_resolved (w : Option A) (fs : List (Comp A)) :
    Value.runSeq (some w) fs = (fs.map (fun _ => (.ok w, false)), some w) := by
  induction fs with
  | nil => rfl
  | cons f fs ih => simp [Value.runSeq, Value.LoadOrCall, ih]

theorem Cache.LoadOrCall_hit (m : CacheMap K A) (k : K) (w : Option A) (f : Comp A)
    (h : mapFind m k = some (some w)) :
    Cache.LoadOrCall m k f = (.ok w, false, m) := by
  simp [Cache.LoadOrCall, CacheMap.loadOrStoreCell, h, Value.LoadOrCall,
    mapSet_self m k (some w) h]

theorem Cache.runSeq_of_stored (m : CacheMap K A) (k : K) (w : Option A)
    (fs : List (Comp A)) (h : mapFind m k = some (some w)) :
    Cache.runSeq m k fs = (fs.map (fun _ => (.ok w, false)), m) := by
  induction fs with
  | nil => rfl
  | cons f fs ih => simp [Cache.runSeq, Cache.LoadOrCall_hit m k w f h, ih]

theorem Cache.LoadOrCall_fresh (m : CacheMap K A) (k : K) (v : A)
    (h : mapFind m k = none) :
    Cache.LoadOrCall m k (some v) = (.ok (some v), true, (k, some (some v)) :: m) := by
  simp [Cache.LoadOrCall, CacheMap.loadOrStoreCell, h, Value.LoadOrCall, mapSet]

/-- C1: single-flight per key.  For every sequence of resolve calls on
one cell, and every sequence of LoadOrCall calls with one key on one
cache whose key starts absent, the first call invokes its compute
function (it alone reports invoked = true) and stores its result; every
later call returns that same stored result and never invokes its own
compute function, whatever compute function it supplies. -/
theorem single_flight_per_key (m : CacheMap K A) (k : K) (v : A)
    (fs : List (Comp A)) (h : mapFind m k = none) :
    Value.runSeq (none : Cell A) (some v :: fs) =
      ((.ok (some v), true) :: fs.map (fun _ => (.ok (some v), false)), some (some v)) ∧
    (Cache.runSeq m k (some v :: fs)).1 =
      (.ok (some v), true) :: fs.map (fun _ => (.ok (some v), false)) ∧
    mapFind (Cache.runSeq m k (some v :: fs)).2 k = some (some (some v)) := by
  have hcell : Value.runSeq (none : Cell A) (some v :: fs) =
      ((.ok (some v), true) :: fs.map (fun _ => (.ok (some v), false)), some (some v)) := by
    simp [Value.runSeq, Value.LoadOrCall, Value.runSeq_resolved]
  have hfind : mapFind ((k, some (some v)) :: m) k = some (some (some v)) := by
    simp [mapFind]
  have hcache : Cache.runSeq m k (some v :: fs) =
      ((.ok (some v), true) :: fs.map (fun _ => (.ok (some v), false)),
        (k, some (some v)) :: m) := by
    simp [Cache.runSeq, Cache.LoadOrCall_fresh m k v h,
      Cache.runSeq_of_stored _ k (some v) fs hfind]
  exact ⟨hcell, by rw [hcache], by rw [hcache]; exact hfind⟩

/-- C1 witness: a concrete run with key 0 absent, first compute 5, and
two later calls supplying a different compute and a panicking compute. -/
theorem single_flight_per_key_witness :
    Value.runSeq (none : Cell Nat) (some 5 :: [some 9, none]) =
      ((.ok (some 5), true) :: [some 9, none].map (fun _ => (.ok (some 5), false)),
        some (some 5)) ∧
    (Cache.runSeq ([] : CacheMap Nat Nat) 0 (some 5 :: [some 9, none])).1 =
      (.ok (some 5), true) :: [some 9, none].map (fun _ => (.ok (some 5), false)) ∧
    mapFind (Cache.runSeq ([] : CacheMap Nat Nat) 0 (some 5 :: [some 9, none])).2 0 =
      some (some (some 5)) :=
  single_flight_per_key [] 0 5 [some 9, none] rfl

/-- C7: a failed compute is non-retryable.  The first resolve of a cell
with a panicking compute propagates the panic to that resolver while the
once is consumed with a nil stored value; every later resolve of the
same cell, whatever compute it supplies, does not invoke it and returns
only the nil value, never a successfully computed one.  Deleting the
entry and reloading does recompute, which is the documented retry path. -/
theorem failed_compute_not_retryable :
    Value.LoadOrCall (none : Cell A) (none : Comp A) =
      (.error .computeFailure, true, some none) ∧
    (∀ f : Comp A, Value.LoadOrCall (some none : Cell A) f = (.ok none, false, some none)) ∧
    (∀ (m : CacheMap K A) (k : K) (v : A),
      Cache.LoadOrCall (Cache.Delete m k) k (some v) =
        (.ok (some v), true, (k, some (some v)) :: Cache.Delete m k)) := by
  refine ⟨rfl, fun f => rfl, fun m k v => ?_⟩
  exact Cache.LoadOrCall_fresh _ k v (mapFind_mapErase_self m k)

/-- C8: a zero-length path is an invalid argument signaled atomically.
LoadOrCall and Prune on the empty path fail with the dedicated
empty-path panic, not a cache miss, and return the state exactly as it
was: no root is created and no entry is touched. -/
theorem empty_path_invalid_argument (t : MultiLevelMap K A) (f : A) :
    MultiLevelMap.LoadOrCall t f [] = (.error .emptyPath, t) ∧
    MultiLevelMap.Prune t [] = (.error .emptyPath, t) :=
  ⟨rfl, rfl⟩

/-- C3: the LRUBackend LoadOrStore contract.  A present key moves its
entry to the most recently used front end, returns the existing value
with loaded = true and evicts nothing (the length is unchanged); an
absent key is inserted at the front, the least recently used back end is
trimmed until the length is at most the capacity (take maxSize, a front
segment of the pushed list, so eviction happens only at the back), and
the given value is returned with loaded = false; hence after every
completed insert the list length is at most the capacity. -/
theorem lru_loadorstore_contract (l : List (K × A)) (M : Nat) (k : K) (v : A) :
    (∀ w, mapFind l k = some w →
      LRUMap.LoadOrStore l M k v = (w, true, (k, w) :: mapEraseFirst l k) ∧
      ((k, w) :: mapEraseFirst l k).length = l.length) ∧
    (mapFind l k = none →
      LRUMap.LoadOrStore l M k v = (v, false, ((k, v) :: l).take M) ∧
      (((k, v) :: l).take M).length ≤ M ∧
      ((k, v) :: l).take M <+: (k, v) :: l) := by
  constructor
  · intro w h
    refine ⟨by simp [LRUMap.LoadOrStore, h], ?_⟩
    simpa using length_mapEraseFirst l k w h
  · intro h
    exact ⟨by simp [LRUMap.LoadOrStore, h], List.length_take_le M _, List.take_prefix M _⟩

/-- C3 witness: a hit on key 1 in a one-entry list keeps the length and
returns the stored value; a miss on key 0 at capacity 2 inserts at the
front and trims the back to two entries. -/
theorem lru_loadorstore_contract_witness :
    (LRUMap.LoadOrStore ([(1, 10)] : List (Nat × Nat)) 1 1 5 =
        (10, true, (1, 10) :: mapEraseFirst [(1, 10)] 1) ∧
      ((1, 10) :: mapEraseFirst ([(1, 10)] : List (Nat × Nat)) 1).length =
        ([(1, 10)] : List (Nat × Nat)).length) ∧
    (LRUMap.LoadOrStore ([(1, 10), (2, 20)] : List (Nat × Nat)) 2 0 5 =
        (5, false, ((0, 5) :: [(1, 10), (2, 20)]).take 2) ∧
      (((0, 5) :: ([(1, 10), (2, 20)] : List (Nat × Nat))).take 2).length ≤ 2 ∧
      ((0, 5) :: ([(1, 10), (2, 20)] : List (Nat × Nat))).take 2 <+:
        (0, 5) :: [(1, 10), (2, 20)]) :=
  ⟨(lru_loadorstore_contract [(1, 10)] 1 1 5).1 10 rfl,
    (lru_loadorstore_contract [(1, 10), (2, 20)] 2 0 5).2 rfl⟩

/-! MultiLevelMap lemmas. -/

theorem pureObs_nil (f : A) :
    ∀ q : List K, q ≠ [] → pureObs ([] : NodeMap K A) f q = .ok (.leaf f, true) := by
  intro q hq
  match q with
  | [k] => rfl
  | k :: k₂ :: p => rfl

theorem missOk_nil :
    ∀ q : List K, q ≠ [] → missOk ([] : NodeMap K A) q = true := by
  intro q hq
  match q with
  | [k] => rfl
  | k :: k₂ :: p => rfl

theorem mlmGo_obs (p : List K) :
    ∀ (m : NodeMap K A) (f : A), (mlmGo m f p).1 = pureObs m f p := by
  induction p with
  | nil => intro m f; rfl
  | cons k p ih =>
    intro m f
    cases p with
    | nil =>
      cases hf : mapFind m k <;> simp [mlmGo, pureObs, nodeLoadOrCall, hf]
    | cons k₂ p₂ =>
      cases hf : mapFind m k with
      | none =>
        simp [mlmGo, pureObs, nodeLoadOrCall, hf, ih,
          pureObs_nil f (k₂ :: p₂) (by simp)]
      | some v =>
        cases v with
        | leaf a => simp [mlmGo, pureObs, nodeLoadOrCall, hf]
        | node child => simp [mlmGo, pureObs, nodeLoadOrCall, hf, ih]

theorem findPath_pureObs (q : List K) :
    ∀ (m : NodeMap K A) (v : MVal K A) (f : A), findPath m q = some v →
      pureObs m f q = .ok (v, false) := by
  induction q with
  | nil => intro m v f h; simp [findPath] at h
  | cons k q ih =>
    intro m v f h
    cases q with
    | nil =>
      simp only [findPath] at h
      simp [pureObs, h]
    | cons k₂ q₂ =>
      cases hf : mapFind m k with
      | none => simp [findPath, hf] at h
      | some w =>
        cases w with
        | leaf a => simp [findPath, hf] at h
        | node child =>
          simp only [findPath, hf] at h
          simp [pureObs, hf, ih child v f h]

theorem missOk_pureObs (q : List K) :
    ∀ (m : NodeMap K A) (f : A), missOk m q = true →
      pureObs m f q = .ok (.leaf f, true) := by
  induction q with
  | nil => intro m f h; simp [missOk] at h
  | cons k q ih =>
    intro m f h
    cases q with
    | nil =>
      simp only [missOk, Option.isNone_iff_eq_none] at h
      simp [pureObs, h]
    | cons k₂ q₂ =>
      cases hf : mapFind m k with
      | none => simp [pureObs, hf]
      | some w =>
        cases w with
        | leaf a => simp [missOk, hf] at h
        | node child =>
          simp only [missOk, hf] at h
          simp [pureObs, hf, ih child f h]

theorem pruneGo_ok_of_missOk (p : List K) :
    ∀ m : NodeMap K A, missOk m p = true → (pruneGo m p).1 = .ok () := by
  induction p with
  | nil => intro m h; simp [missOk] at h
  | cons k p ih =>
    intro m h
    cases p with
    | nil => rfl
    | cons k₂ p₂ =>
      cases hf : mapFind m k with
      | none =>
        simp [pruneGo, nodeLoadOrCall, hf,
          ih ([] : NodeMap K A) (missOk_nil (k₂ :: p₂) (by simp))]
      | some w =>
        cases w with
        | leaf a => simp [missOk, hf] at h
        | node child =>
          simp only [missOk, hf] at h
          simp [pruneGo, nodeLoadOrCall, hf, ih child h]

theorem pruneGo_missOk_after (p : List K) :
    ∀ m : NodeMap K A, (pruneGo m p).1 = .ok () →
      missOk (pruneGo m p).2 p = true := by
  induction p with
  | nil => intro m h; simp [pruneGo] at h
  | cons k p ih =>
    intro m h
    cases p with
    | nil =>
      simp [pruneGo, missOk, mapFind_mapErase_self]
    | cons k₂ p₂ =>
      cases hf : mapFind m k with
      | none =>
        have h₁ : (pruneGo ([] : NodeMap K A) (k₂ :: p₂)).1 = .ok () := by
          simpa [pruneGo, nodeLoadOrCall, hf] using h
        have h₂ := ih ([] : NodeMap K A) h₁
        simp [pruneGo, nodeLoadOrCall, hf, missOk, mapFind_mapSet_self, h₂]
      | some w =>
        cases w with
        | leaf a => simp [pruneGo, nodeLoadOrCall, hf] at h
        | node child =>
          have h₁ : (pruneGo child (k₂ :: p₂)).1 = .ok () := by
            simpa [pruneGo, nodeLoadOrCall, hf] using h
          have h₂ := ih child h₁
          simp [pruneGo, nodeLoadOrCall, hf, missOk, mapFind_mapSet_self, h₂]

theorem prune_preserves_leaf (p : List K) :
    ∀ (m : NodeMap K A) (q : List K) (v : A),
      (pruneGo m p).1 = .ok () → ¬ (p <+: q) →
      findPath m q = some (.leaf v) → findPath (pruneGo m p).2 q = some (.leaf v) := by
  induction p with
  | nil => intro m q v hp hq hfind; simp [pruneGo] at hp
  | cons k p ih =>
    intro m q v hp hq hfind
    cases p with
    | nil =>
      cases q with
      | nil => simp [findPath] at hfind
      | cons q₁ q₂ =>
        have hne : q₁ ≠ k := by
          intro he
          exact hq (by simp [he, List.cons_prefix_cons])
        cases q₂ with
        | nil =>
          simp only [findPath] at hfind
          simp [pruneGo, findPath, mapFind_mapErase_ne m k q₁ hne, hfind]
        | cons q₃ q₄ =>
          cases hf : mapFind m q₁ with
          | none => simp [findPath, hf] at hfind
          | some w =>
            cases w with
            | leaf a => simp [findPath, hf] at hfind
            | node child =>
              simp only [findPath, hf] at hfind
              simp [pruneGo, findPath, mapFind_mapErase_ne m k q₁ hne, hf, hfind]
    | cons k₂ p₂ =>
      cases hfk : mapFind m k with
      | some w =>
        cases w with
        | leaf a => simp [pruneGo, nodeLoadOrCall, hfk] at hp
        | node child =>
          have hp₁ : (pruneGo child (k₂ :: p₂)).1 = .ok () := by
            simpa [pruneGo, nodeLoadOrCall, hfk] using hp
          cases q with
          | nil => simp [findPath] at hfind
          | cons q₁ q₂ =>
            by_cases hne : q₁ = k
            · subst hne
              cases q₂ with
              | nil => simp [findPath, hfk] at hfind
              | cons q₃ q₄ =>
                simp only [findPath, hfk] at hfind
                have hq₂ : ¬ ((k₂ :: p₂) <+: (q₃ :: q₄)) := by
                  intro hc
                  exact hq (by simp [List.cons_prefix_cons, hc])
                have := ih child (q₃ :: q₄) v hp₁ hq₂ hfind
                simp [pruneGo, nodeLoadOrCall, hfk, findPath, mapFind_mapSet_self, this]
            · cases q₂ with
              | nil =>
                simp only [findPath] at hfind
                simp [pruneGo, nodeLoadOrCall, hfk, findPath,
                  mapFind_mapSet_ne _ k q₁ _ hne, hfind]
              | cons q₃ q₄ =>
                cases hf : mapFind m q₁ with
                | none => simp [findPath, hf] at hfind
                | some w =>
                  cases w with
                  | leaf a => simp [findPath, hf] at hfind
                  | node child₁ =>
                    simp only [findPath, hf] at hfind
                    simp [pruneGo, nodeLoadOrCall, hfk, findPath,
                      mapFind_mapSet_ne _ k q₁ _ hne, hf, hfind]
      | none =>
        have hset : mapSet ((k, MVal.node ([] : NodeMap K A)) :: m) k
            (MVal.node (pruneGo ([] : NodeMap K A) (k₂ :: p₂)).2) =
            (k, MVal.node (pruneGo ([] : NodeMap K A) (k₂ :: p₂)).2) :: m := by
          simp [mapSet]
        cases q with
        | nil => simp [findPath] at hfind
        | cons q₁ q₂ =>
          by_cases hne : q₁ = k
          · subst hne
            cases q₂ with
            | nil => simp [findPath, hfk] at hfind
            | cons q₃ q₄ => simp [findPath, hfk] at hfind
          · have hkq : ¬ (k = q₁) := fun h => hne h.symm
            have hfq : mapFind ((k, MVal.node (pruneGo ([] : NodeMap K A) (k₂ :: p₂)).2) :: m) q₁ =
                mapFind m q₁ := by
              simp [mapFind, hkq]
            cases q₂ with
            | nil =>
              simp only [findPath] at hfind
              simp [pruneGo, nodeLoadOrCall, hfk, hset, findPath, hfq, hfind]
            | cons q₃ q₄ =>
              cases hf : mapFind m q₁ with
              | none => simp [findPath, hf] at hfind
              | some w =>
                cases w with
                | leaf a => simp [findPath, hf] at hfind
                | node child₁ =>
                  simp only [findPath, hf] at hfind
                  simp [pruneGo, nodeLoadOrCall, hfk, hset, findPath, hfq, hf, hfind]

theorem pureObs_head_eq (m m₁ : NodeMap K A) (q₁ : K) (q₂ : List K) (f : A)
    (h : mapFind m₁ q₁ = mapFind m q₁) :
    pureObs m₁ f (q₁ :: q₂) = pureObs m f (q₁ :: q₂) := by
  cases q₂ <;> simp only [pureObs, h]

theorem prune_obs_frame (p : List K) :
    ∀ (m : NodeMap K A) (q : List K) (f : A),
      (pruneGo m p).1 = .ok () → missOk m p = true →
      ¬ (q <+: p ∧ q ≠ p) →
      pureObs (pruneGo m p).2 f q = pureObs m f q := by
  induction p with
  | nil => intro m q f hp hm hq; simp [missOk] at hm
  | cons k p ih =>
    intro m q f hp hm hq
    cases p with
    | nil =>
      simp only [missOk, Option.isNone_iff_eq_none] at hm
      simp [pruneGo, mapErase_of_find_none m k hm]
    | cons k₂ p₂ =>
      cases hfk : mapFind m k with
      | some w =>
        cases w with
        | leaf a => simp [missOk, hfk] at hm
        | node child =>
          have hp₁ : (pruneGo child (k₂ :: p₂)).1 = .ok () := by
            simpa [pruneGo, nodeLoadOrCall, hfk] using hp
          have hm₁ : missOk child (k₂ :: p₂) = true := by
            simpa [missOk, hfk] using hm
          cases q with
          | nil => simp [pruneGo, nodeLoadOrCall, hfk, pureObs]
          | cons q₁ q₂ =>
            by_cases hne : q₁ = k
            · subst hne
              cases q₂ with
              | nil =>
                exact absurd ⟨by simp [List.cons_prefix_cons], by simp⟩ hq
              | cons q₃ q₄ =>
                have hq₂ : ¬ ((q₃ :: q₄) <+: (k₂ :: p₂) ∧ q₃ :: q₄ ≠ k₂ :: p₂) := by
                  rintro ⟨hc, hd⟩
                  exact hq ⟨by simp [List.cons_prefix_cons, hc], by simpa using hd⟩
                have hrec := ih child (q₃ :: q₄) f hp₁ hm₁ hq₂
                simp [pruneGo, nodeLoadOrCall, hfk, pureObs, mapFind_mapSet_self, hrec]
            · apply pureObs_head_eq
              simp [pruneGo, nodeLoadOrCall, hfk, mapFind_mapSet_ne _ k q₁ _ hne]
      | none =>
        have hp₁ : (pruneGo ([] : NodeMap K A) (k₂ :: p₂)).1 = .ok () := by
          simpa [pruneGo, nodeLoadOrCall, hfk] using hp
        have hset : mapSet ((k, MVal.node ([] : NodeMap K A)) :: m) k
            (MVal.node (pruneGo ([] : NodeMap K A) (k₂ :: p₂)).2) =
            (k, MVal.node (pruneGo ([] : NodeMap K A) (k₂ :: p₂)).2) :: m := by
          simp [mapSet]
        cases q with
        | nil => simp [pruneGo, nodeLoadOrCall, hfk, hset, pureObs]
        | cons q₁ q₂ =>
          by_cases hne : q₁ = k
          · subst hne
            cases q₂ with
            | nil =>
              exact absurd ⟨by simp [List.cons_prefix_cons], by simp⟩ hq
            | cons q₃ q₄ =>
              have hq₂ : ¬ ((q₃ :: q₄) <+: (k₂ :: p₂) ∧ q₃ :: q₄ ≠ k₂ :: p₂) := by
                rintro ⟨hc, hd⟩
                exact hq ⟨by simp [List.cons_prefix_cons, hc], by simpa using hd⟩
              have hrec := ih ([] : NodeMap K A) (q₃ :: q₄) f hp₁
                (missOk_nil (k₂ :: p₂) (by simp)) hq₂
              rw [pureObs_nil f (q₃ :: q₄) (by simp)] at hrec
              simp [pruneGo, nodeLoadOrCall, hfk, hset, pureObs, mapFind, hrec]
          · have hkq : ¬ (k = q₁) := fun h => hne h.symm
            apply pureObs_head_eq
            simp [pruneGo, nodeLoadOrCall, hfk, hset, mapFind, hkq]

theorem conflict_go (pl : List K) :
    ∀ (m : NodeMap K A) (v : A) (f : A) (ext : List K), ext ≠ [] →
      findPath m pl = some (.leaf v) →
      mlmGo m f (pl ++ ext) = (.error .typeAssert, m) ∧
      pruneGo m (pl ++ ext) = (.error .typeAssert, m) := by
  induction pl with
  | nil => intro m v f ext hext hfind; simp [findPath] at hfind
  | cons k pl ih =>
    intro m v f ext hext hfind
    cases pl with
    | nil =>
      simp only [findPath] at hfind
      cases ext with
      | nil => exact absurd rfl hext
      | cons e es =>
        exact ⟨by simp [mlmGo, nodeLoadOrCall, hfind],
          by simp [pruneGo, nodeLoadOrCall, hfind]⟩
    | cons k₂ pl₂ =>
      cases hfk : mapFind m k with
      | none => simp [findPath, hfk] at hfind
      | some w =>
        cases w with
        | leaf a => simp [findPath, hfk] at hfind
        | node child =>
          simp only [findPath, hfk] at hfind
          have hrec := ih child v f ext hext hfind
          simp only [List.cons_append] at hrec
          refine ⟨?_, ?_⟩
          · simp [mlmGo, nodeLoadOrCall, hfk, hrec.1, mapSet_self m k _ hfk]
          · simp [pruneGo, nodeLoadOrCall, hfk, hrec.2, mapSet_self m k _ hfk]

/-- C2: prune-then-reload with non-interference.  After a successful
Prune of path p, the next LoadOrCall at p misses and returns the value
of its newly supplied compute function, while a LoadOrCall for any path
that is not p and not under p whose leaf value was cached before the
prune still returns that old value as a hit.  Likewise at the single
cache level: after Delete of key k, LoadOrCall at k recomputes, while
any other key with a resolved entry still returns its stored value and
the delete removed nothing else. -/
theorem prune_then_reload (t : MultiLevelMap K A) (p : List K)
    (hp : (MultiLevelMap.Prune t p).1 = .ok ()) :
    (∀ f : A, ((MultiLevelMap.Prune t p).2.LoadOrCall f p).1 = .ok (.leaf f, true)) ∧
    (∀ (q : List K) (g : A) (v : A), ¬ (p <+: q) →
      findPath (t.root.getD []) q = some (.leaf v) →
      ((MultiLevelMap.Prune t p).2.LoadOrCall g q).1 = .ok (.leaf v, false)) ∧
    (∀ (m : CacheMap K A) (k : K) (v : A),
      (Cache.LoadOrCall (Cache.Delete m k) k (some v)).1 = .ok (some v) ∧
      (Cache.LoadOrCall (Cache.Delete m k) k (some v)).2.1 = true) ∧
    (∀ (m : CacheMap K A) (k k₁ : K) (g : Comp A) (w : Option A), k₁ ≠ k →
      mapFind m k₁ = some (some w) →
      Cache.LoadOrCall (Cache.Delete m k) k₁ g = (.ok w, false, Cache.Delete m k)) := by
  obtain ⟨k, p₁, rfl⟩ : ∃ k p₁, p = k :: p₁ := by
    cases p with
    | nil => simp [MultiLevelMap.Prune] at hp
    | cons a b => exact ⟨a, b, rfl⟩
  have hok : (pruneGo (t.root.getD []) (k :: p₁)).1 = .ok () := by
    simpa [MultiLevelMap.Prune] using hp
  refine ⟨?_, ?_, ?_, ?_⟩
  · intro f
    have hmiss := pruneGo_missOk_after (k :: p₁) (t.root.getD []) hok
    simp [MultiLevelMap.Prune, MultiLevelMap.LoadOrCall, mlmGo_obs,
      missOk_pureObs _ _ f hmiss]
  · intro q g v hq hfind
    obtain ⟨q₁, q₂, rfl⟩ : ∃ q₁ q₂, q = q₁ :: q₂ := by
      cases q with
      | nil => simp [findPath] at hfind
      | cons a b => exact ⟨a, b, rfl⟩
    have hkeep := prune_preserves_leaf (k :: p₁) (t.root.getD []) (q₁ :: q₂) v hok hq hfind
    simp [MultiLevelMap.Prune, MultiLevelMap.LoadOrCall, mlmGo_obs]
    rw [findPath_pureObs (q₁ :: q₂) _ _ g (by simpa [MultiLevelMap.Prune] using hkeep)]
  · intro m k₀ v
    rw [Cache.LoadOrCall_fresh (Cache.Delete m k₀) k₀ v (mapFind_mapErase_self m k₀)]
    exact ⟨rfl, rfl⟩
  · intro m k₀ k₁ g w hne hfind
    exact Cache.LoadOrCall_hit (Cache.Delete m k₀) k₁ w g
      (by rw [Cache.Delete, mapFind_mapErase_ne m k₀ k₁ hne]; exact hfind)

/-- C2 witness: a tree holding leaves at paths (0, 5) and (1); pruning
(0, 5) succeeds, after which the claims hold at the pruned path and at
the untouched path. -/
theorem prune_then_reload_witness :
    (∀ f : Nat, ((MultiLevelMap.Prune
        (⟨some [(0, .node [(5, .leaf 11)]), (1, .leaf 22)]⟩ : MultiLevelMap Nat Nat)
        [0, 5]).2.LoadOrCall f [0, 5]).1 = .ok (.leaf f, true)) ∧
    (∀ (q : List Nat) (g v : Nat), ¬ ([0, 5] <+: q) →
      findPath ((⟨some [(0, .node [(5, .leaf 11)]), (1, .leaf 22)]⟩ :
          MultiLevelMap Nat Nat).root.getD []) q = some (.leaf v) →
      ((MultiLevelMap.Prune
        (⟨some [(0, .node [(5, .leaf 11)]), (1, .leaf 22)]⟩ : MultiLevelMap Nat Nat)
        [0, 5]).2.LoadOrCall g q).1 = .ok (.leaf v, false)) ∧
    (∀ (m : CacheMap Nat Nat) (k : Nat) (v : Nat),
      (Cache.LoadOrCall (Cache.Delete m k) k (some v)).1 = .ok (some v) ∧
      (Cache.LoadOrCall (Cache.Delete m k) k (some v)).2.1 = true) ∧
    (∀ (m : CacheMap Nat Nat) (k k₁ : Nat) (g : Comp Nat) (w : Option Nat), k₁ ≠ k →
      mapFind m k₁ = some (some w) →
      Cache.LoadOrCall (Cache.Delete m k) k₁ g = (.ok w, false, Cache.Delete m k)) :=
  prune_then_reload
    (⟨some [(0, .node [(5, .leaf 11)]), (1, .leaf 22)]⟩ : MultiLevelMap Nat Nat)
    [0, 5] rfl

/-- C9 counterexample: the path (0, 1) has no corresponding entry in a
tree whose key 0 holds the leaf 1, yet Prune (0, 1) does not return
without error: it panics with the type assertion failure. -/
theorem prune_missing_path_counterexample :
    findPath ([(0, MVal.leaf 1)] : NodeMap Nat Nat) [0, 1] = none ∧
    (MultiLevelMap.Prune (⟨some [(0, MVal.leaf 1)]⟩ : MultiLevelMap Nat Nat) [0, 1]).1 =
      .error .typeAssert :=
  ⟨rfl, rfl⟩

/-- C9 amended: pruning a non-empty path p with no corresponding entry,
where the descent also meets no leaf at a proper prefix of p, returns
without error; afterwards every LoadOrCall whose path is not a proper
prefix of p returns exactly the result it would have returned before
the prune.  A LoadOrCall at a proper prefix of p may instead observe
the intermediate node the pruning descent lazily created, and a leaf
stored at a proper prefix of p makes the prune itself panic with the
type assertion failure (see the counterexample), so the claim holds
only under the missOk hypothesis and the proper-prefix exclusion. -/
theorem prune_missing_path_noop (t : MultiLevelMap K A) (p : List K)
    (hm : missOk (t.root.getD []) p = true) :
    (MultiLevelMap.Prune t p).1 = .ok () ∧
    ∀ (q : List K) (f : A), ¬ (q <+: p ∧ q ≠ p) →
      ((MultiLevelMap.Prune t p).2.LoadOrCall f q).1 = (t.LoadOrCall f q).1 := by
  obtain ⟨k, p₁, rfl⟩ : ∃ k p₁, p = k :: p₁ := by
    cases p with
    | nil => simp [missOk] at hm
    | cons a b => exact ⟨a, b, rfl⟩
  have hok := pruneGo_ok_of_missOk (k :: p₁) (t.root.getD []) hm
  refine ⟨by simp [MultiLevelMap.Prune, hok], ?_⟩
  intro q f hq
  cases q with
  | nil => simp [MultiLevelMap.LoadOrCall, MultiLevelMap.Prune]
  | cons q₁ q₂ =>
    have hframe := prune_obs_frame (k :: p₁) (t.root.getD []) (q₁ :: q₂) f hok hm hq
    simp [MultiLevelMap.Prune, MultiLevelMap.LoadOrCall, mlmGo_obs, hframe]

/-- C9 witness: pruning the absent path (1, 2) in a tree whose only
entry is the leaf at key 0 succeeds and changes no LoadOrCall outcome
outside the proper prefixes of (1, 2). -/
theorem prune_missing_path_noop_witness :
    (MultiLevelMap.Prune (⟨some [(0, MVal.leaf 5)]⟩ : MultiLevelMap Nat Nat) [1, 2]).1 =
      .ok () ∧
    ∀ (q : List Nat) (f : Nat), ¬ (q <+: [1, 2] ∧ q ≠ [1, 2]) →
      ((MultiLevelMap.Prune (⟨some [(0, MVal.leaf 5)]⟩ : MultiLevelMap Nat Nat)
          [1, 2]).2.LoadOrCall f q).1 =
        ((⟨some [(0, MVal.leaf 5)]⟩ : MultiLevelMap Nat Nat).LoadOrCall f q).1 :=
  prune_missing_path_noop (⟨some [(0, MVal.leaf 5)]⟩ : MultiLevelMap Nat Nat) [1, 2] rfl

/-- C10: implicit conflict-path behavior.  If a non-cache leaf value is
cached at path pl, every LoadOrCall and every Prune whose path strictly
extends pl panics with the type assertion failure of findLeafNode
during the descent, returns no value, and leaves the tree, including
the stored leaf, exactly unchanged. -/
theorem conflict_path_type_assert (t : MultiLevelMap K A) (r : NodeMap K A)
    (pl : List K) (v : A) (ht : t.root = some r)
    (hleaf : findPath r pl = some (.leaf v)) :
    ∀ (ext : List K) (f : A), ext ≠ [] →
      MultiLevelMap.LoadOrCall t f (pl ++ ext) = (.error .typeAssert, t) ∧
      MultiLevelMap.Prune t (pl ++ ext) = (.error .typeAssert, t) := by
  intro ext f hext
  obtain ⟨k, pl₁, rfl⟩ : ∃ k pl₁, pl = k :: pl₁ := by
    cases pl with
    | nil => simp [findPath] at hleaf
    | cons a b => exact ⟨a, b, rfl⟩
  have hgo := conflict_go (k :: pl₁) r v f ext hext hleaf
  simp only [List.cons_append] at hgo
  cases t with
  | mk root =>
    cases ht
    exact ⟨by simp [MultiLevelMap.LoadOrCall, hgo.1],
      by simp [MultiLevelMap.Prune, hgo.2]⟩

/-- C10 witness: with the leaf 1 cached at path (0), both LoadOrCall
and Prune at the strict extension (0, 1) panic with the type assertion
and leave the tree unchanged. -/
theorem conflict_path_type_assert_witness :
    MultiLevelMap.LoadOrCall (⟨some [(0, MVal.leaf 1)]⟩ : MultiLevelMap Nat Nat) 9
        ([0] ++ [1]) =
      (.error .typeAssert, (⟨some [(0, MVal.leaf 1)]⟩ : MultiLevelMap Nat Nat)) ∧
    MultiLevelMap.Prune (⟨some [(0, MVal.leaf 1)]⟩ : MultiLevelMap Nat Nat) ([0] ++ [1]) =
      (.error .typeAssert, (⟨some [(0, MVal.leaf 1)]⟩ : MultiLevelMap Nat Nat)) :=
  conflict_path_type_assert (⟨some [(0, MVal.leaf 1)]⟩ : MultiLevelMap Nat Nat)
    [(0, MVal.leaf 1)] [0] 1 rfl rfl [1] 9 (by simp)

/-! RRCache lemmas. -/

theorem rrMaybeEvict_id (cfg : RRCfg) (s : RRState K A) (h : s.cnt ≤ cfg.maxSize) :
    rrMaybeEvict cfg s = s := by
  simp [rrMaybeEvict, rrEvictLoop, not_lt.mpr h]

theorem rrLoadOrCall_hit (cfg : RRCfg) (s : RRState K A) (k : K) (v : RRVal K A)
    (f : RRVal K A) (h : mapFind s.entries k = some (some v)) :
    RRCache.LoadOrCall cfg s k f = (v, false, s) := by
  simp [RRCache.LoadOrCall, h]

theorem RRCache.LoadOrCall_fresh_noevict (cfg : RRCfg) (s : RRState K A) (k : K)
    (f : RRVal K A) (h : mapFind s.entries k = none) (hroom : s.cnt + 1 ≤ cfg.maxSize) :
    RRCache.LoadOrCall cfg s k f = (f, true, ⟨(k, some f) :: s.entries, s.cnt + 1⟩) := by
  have hid : rrMaybeEvict cfg ⟨(k, none) :: s.entries, s.cnt + 1⟩ =
      ⟨(k, none) :: s.entries, s.cnt + 1⟩ := rrMaybeEvict_id cfg _ hroom
  simp [RRCache.LoadOrCall, h, rrResolveNew, hid, rrSetIfMem, mapFind, mapSet]

theorem rrSize_cons (k : K) (c : Option (RRVal K A)) (es : RREntries K A) :
    rrSize ((k, c) :: es) = 1 + rrCellSize c + rrSize es := by
  cases c <;> simp [rrSize, rrCellSize]

theorem rrSize_find_le (es : RREntries K A) (k : K) (c : Option (RRVal K A))
    (h : mapFind es k = some c) : 1 + rrCellSize c ≤ rrSize es := by
  induction es with
  | nil => simp [mapFind] at h
  | cons e es ih =>
    obtain ⟨k₀, c₀⟩ := e
    by_cases he : k₀ = k
    · simp only [mapFind, he, if_pos] at h
      obtain rfl : c₀ = c := Option.some.inj h
      simp [rrSize_cons]
    · simp only [mapFind, he, if_false, reduceIte] at h
      have := ih h
      simp [rrSize_cons]
      omega

theorem rrSize_mapSet (es : RREntries K A) (k : K) (c : Option (RRVal K A))
    (h : mapFind es k = some c) (c₁ : Option (RRVal K A)) :
    rrSize (mapSet es k c₁) + rrCellSize c = rrSize es + rrCellSize c₁ := by
  induction es with
  | nil => simp [mapFind] at h
  | cons e es ih =>
    obtain ⟨k₀, c₀⟩ := e
    by_cases he : k₀ = k
    · simp only [mapFind, he, if_pos] at h
      obtain rfl : c₀ = c := Option.some.inj h
      simp [mapSet, he, rrSize_cons]
      omega
    · simp only [mapFind, he, if_false, reduceIte] at h
      have := ih h
      simp [mapSet, he, rrSize_cons]
      omega

theorem rrWF_find (es : RREntries K A) (k : K) (c : Option (RRVal K A))
    (hwf : rrWF es = true) (h : mapFind es k = some c) : rrCellWF c = true := by
  induction es with
  | nil => simp [mapFind] at h
  | cons e es ih =>
    obtain ⟨k₀, c₀⟩ := e
    simp only [rrWF, Bool.and_eq_true] at hwf
    by_cases he : k₀ = k
    · simp only [mapFind, he, if_pos] at h
      obtain rfl : c₀ = c := Option.some.inj h
      exact hwf.1.2
    · simp only [mapFind, he, if_false, reduceIte] at h
      exact ih hwf.2 h

theorem rrWF_mapSet (es : RREntries K A) (k : K) (c : Option (RRVal K A))
    (c₁ : Option (RRVal K A)) (hwf : rrWF es = true) (h : mapFind es k = some c)
    (hc₁ : rrCellWF c₁ = true) : rrWF (mapSet es k c₁) = true := by
  induction es with
  | nil => simp [mapFind] at h
  | cons e es ih =>
    obtain ⟨k₀, c₀⟩ := e
    simp only [rrWF, Bool.and_eq_true] at hwf
    by_cases he : k₀ = k
    · subst he
      simp only [mapSet, if_pos]
      simp only [rrWF, Bool.and_eq_true]
      exact ⟨⟨hwf.1.1, hc₁⟩, hwf.2⟩
    · simp only [mapFind, he, if_false, reduceIte] at h
      simp only [mapSet, he, if_false, reduceIte]
      simp only [rrWF, Bool.and_eq_true]
      refine ⟨⟨?_, hwf.1.2⟩, ih hwf.2 h⟩
      rw [mapFind_mapSet_ne es k k₀ c₁ he]
      exact hwf.1.1

theorem rrWF_mapErase (es : RREntries K A) (k : K) (hwf : rrWF es = true) :
    rrWF (mapErase es k) = true := by
  induction es with
  | nil => simp [mapErase, rrWF]
  | cons e es ih =>
    obtain ⟨k₀, c₀⟩ := e
    simp only [rrWF, Bool.and_eq_true] at hwf
    by_cases he : k₀ = k
    · simp [mapErase, he, ih hwf.2]
    · simp only [mapErase, he, if_false, reduceIte, rrWF, Bool.and_eq_true]
      refine ⟨⟨?_, hwf.1.2⟩, ih hwf.2⟩
      rw [mapFind_mapErase_ne es k k₀ he]
      exact hwf.1.1

theorem rrSize_mapErase (es : RREntries K A) (k : K) (c : Option (RRVal K A))
    (hwf : rrWF es = true) (h : mapFind es k = some c) :
    rrSize (mapErase es k) + 1 + rrCellSize c = rrSize es := by
  induction es with
  | nil => simp [mapFind] at h
  | cons e es ih =>
    obtain ⟨k₀, c₀⟩ := e
    simp only [rrWF, Bool.and_eq_true, Option.isNone_iff_eq_none] at hwf
    by_cases he : k₀ = k
    · simp only [mapFind, he, if_pos] at h
      obtain rfl : c₀ = c := Option.some.inj h
      rw [mapErase, if_pos he, mapErase_of_find_none es k (he ▸ hwf.1.1)]
      simp [rrSize_cons]
      omega
    · simp only [mapFind, he, if_false, reduceIte] at h
      have := ih hwf.2 h
      rw [mapErase, if_neg he]
      simp [rrSize_cons]
      omega

theorem rrSetIfMem_present (es : RREntries K A) (k : K) (c : Option (RRVal K A))
    (c₁ : Option (RRVal K A)) (h : mapFind es k = some c) :
    rrSetIfMem es k c₁ = mapSet es k c₁ := by
  simp [rrSetIfMem, h]

theorem rrPrunable_nil (q : List K) : rrPrunable ([] : RREntries K A) q = true := by
  match q with
  | [] => rfl
  | [k] => rfl
  | k :: k₂ :: p => rfl

theorem mlrrGo_inv (cfg : RRCfg) (p : List K) :
    ∀ (s : RRState K A) (f : A) (c₀ : Int),
      rrWF s.entries = true → s.cnt = rrSize s.entries + c₀ →
      s.cnt + p.length ≤ cfg.maxSize →
      rrWF (mlrrGo cfg s f p).2.entries = true ∧
      (mlrrGo cfg s f p).2.cnt = rrSize (mlrrGo cfg s f p).2.entries + c₀ ∧
      (mlrrGo cfg s f p).2.cnt ≤ s.cnt + p.length := by
  induction p with
  | nil =>
    intro s f c₀ hwf hsz hroom
    exact ⟨hwf, hsz, by simp [mlrrGo]⟩
  | cons k p ih =>
    intro s f c₀ hwf hsz hroom
    cases p with
    | nil =>
      cases hf : mapFind s.entries k with
      | some c =>
        cases c with
        | some v =>
          have hstep : (mlrrGo cfg s f [k]).2 = s := by
            simp [mlrrGo, rrLoadOrCall_hit cfg s k v (.leaf f) hf]
          rw [hstep]
          exact ⟨hwf, hsz, by simp⟩
        | none =>
          have := rrWF_find s.entries k none hwf hf
          simp [rrCellWF] at this
      | none =>
        have hroom₁ : s.cnt + 1 ≤ cfg.maxSize := by
          simp at hroom
          omega
        have hstep : (mlrrGo cfg s f [k]).2 =
            ⟨(k, some (.leaf f)) :: s.entries, s.cnt + 1⟩ := by
          simp [mlrrGo, RRCache.LoadOrCall_fresh_noevict cfg s k (.leaf f) hf hroom₁]
        rw [hstep]
        refine ⟨?_, ?_, by simp⟩
        · show rrWF ((k, some (.leaf f)) :: s.entries) = true
          simp [rrWF, hf, rrCellWF, RRVal.wfV, hwf]
        · show s.cnt + 1 = (rrSize ((k, some (.leaf f)) :: s.entries) : Int) + c₀
          rw [rrSize_cons]
          simp only [rrCellSize, RRVal.vsize]
          push_cast
          omega
    | cons k₂ p₂ =>
      have hlen : ((k :: k₂ :: p₂).length : Int) = ((k₂ :: p₂).length : Int) + 1 := by
        push_cast [List.length_cons]
        ring
      cases hf : mapFind s.entries k with
      | some c =>
        cases c with
        | none =>
          have := rrWF_find s.entries k none hwf hf
          simp [rrCellWF] at this
        | some v =>
          cases v with
          | leaf a =>
            have hstep : (mlrrGo cfg s f (k :: k₂ :: p₂)).2 = s := by
              simp [mlrrGo, rrLoadOrCall_hit cfg s k (.leaf a) (.node []) hf]
            rw [hstep]
            refine ⟨hwf, hsz, ?_⟩
            have : (0 : Int) ≤ (k :: k₂ :: p₂).length := by positivity
            omega
          | node child =>
            have hcwf : rrWF child = true := by
              have := rrWF_find s.entries k (some (.node child)) hwf hf
              simpa [rrCellWF, RRVal.wfV] using this
            have hstep : (mlrrGo cfg s f (k :: k₂ :: p₂)).2 =
                ⟨rrSetIfMem s.entries k
                    (some (.node (mlrrGo cfg ⟨child, s.cnt⟩ f (k₂ :: p₂)).2.entries)),
                  (mlrrGo cfg ⟨child, s.cnt⟩ f (k₂ :: p₂)).2.cnt⟩ := by
              simp [mlrrGo, rrLoadOrCall_hit cfg s k (.node child) (.node []) hf]
            have hIH := ih ⟨child, s.cnt⟩ f (c₀ + rrSize s.entries - rrSize child) hcwf
              (show s.cnt = (rrSize child : Int) +
                  (c₀ + rrSize s.entries - rrSize child) by omega)
              (show s.cnt + ((k₂ :: p₂).length : Int) ≤ cfg.maxSize by omega)
            have hw₁ : rrWF (mlrrGo cfg ⟨child, s.cnt⟩ f (k₂ :: p₂)).2.entries = true :=
              hIH.1
            have hs₁ : (mlrrGo cfg ⟨child, s.cnt⟩ f (k₂ :: p₂)).2.cnt =
                (rrSize (mlrrGo cfg ⟨child, s.cnt⟩ f (k₂ :: p₂)).2.entries : Int) +
                  (c₀ + rrSize s.entries - rrSize child) := hIH.2.1
            have hb₁ : (mlrrGo cfg ⟨child, s.cnt⟩ f (k₂ :: p₂)).2.cnt ≤
                s.cnt + ((k₂ :: p₂).length : Int) := hIH.2.2
            have hset := rrSetIfMem_present s.entries k (some (.node child))
              (some (.node (mlrrGo cfg ⟨child, s.cnt⟩ f (k₂ :: p₂)).2.entries)) hf
            have hsz₁ := rrSize_mapSet s.entries k (some (.node child)) hf
              (some (.node (mlrrGo cfg ⟨child, s.cnt⟩ f (k₂ :: p₂)).2.entries))
            simp only [rrCellSize, RRVal.vsize] at hsz₁
            rw [hstep, hset]
            refine ⟨?_, ?_, ?_⟩
            · show rrWF (mapSet s.entries k
                  (some (.node (mlrrGo cfg ⟨child, s.cnt⟩ f (k₂ :: p₂)).2.entries))) = true
              exact rrWF_mapSet s.entries k (some (.node child)) _ hwf hf
                (by simpa [rrCellWF, RRVal.wfV] using hw₁)
            · show (mlrrGo cfg ⟨child, s.cnt⟩ f (k₂ :: p₂)).2.cnt =
                (rrSize (mapSet s.entries k
                  (some (.node (mlrrGo cfg ⟨child, s.cnt⟩ f (k₂ :: p₂)).2.entries))) : Int) + c₀
              omega
            · show (mlrrGo cfg ⟨child, s.cnt⟩ f (k₂ :: p₂)).2.cnt ≤
                s.cnt + ((k :: k₂ :: p₂).length : Int)
              omega
      | none =>
        have hroom₁ : s.cnt + 1 ≤ cfg.maxSize := by
          simp at hroom
          omega
        have hfr := RRCache.LoadOrCall_fresh_noevict cfg s k (.node []) hf hroom₁
        have hstep : (mlrrGo cfg s f (k :: k₂ :: p₂)).2 =
            ⟨rrSetIfMem ((k, some (.node ([] : RREntries K A))) :: s.entries) k
                (some (.node (mlrrGo cfg ⟨[], s.cnt + 1⟩ f (k₂ :: p₂)).2.entries)),
              (mlrrGo cfg ⟨[], s.cnt + 1⟩ f (k₂ :: p₂)).2.cnt⟩ := by
          simp [mlrrGo, hfr]
        have hIH := ih ⟨[], s.cnt + 1⟩ f (c₀ + rrSize s.entries + 1) (by simp [rrWF])
          (show s.cnt + 1 = (rrSize ([] : RREntries K A) : Int) +
              (c₀ + rrSize s.entries + 1) by simp [rrSize]; omega)
          (show s.cnt + 1 + ((k₂ :: p₂).length : Int) ≤ cfg.maxSize by omega)
        have hw₁ : rrWF (mlrrGo cfg ⟨[], s.cnt + 1⟩ f (k₂ :: p₂)).2.entries = true := hIH.1
        have hs₁ : (mlrrGo cfg ⟨[], s.cnt + 1⟩ f (k₂ :: p₂)).2.cnt =
            (rrSize (mlrrGo cfg ⟨[], s.cnt + 1⟩ f (k₂ :: p₂)).2.entries : Int) +
              (c₀ + rrSize s.entries + 1) := hIH.2.1
        have hb₁ : (mlrrGo cfg ⟨[], s.cnt + 1⟩ f (k₂ :: p₂)).2.cnt ≤
            s.cnt + 1 + ((k₂ :: p₂).length : Int) := hIH.2.2
        have hset : rrSetIfMem ((k, some (.node ([] : RREntries K A))) :: s.entries) k
            (some (.node (mlrrGo cfg ⟨[], s.cnt + 1⟩ f (k₂ :: p₂)).2.entries)) =
            (k, some (.node (mlrrGo cfg ⟨[], s.cnt + 1⟩ f (k₂ :: p₂)).2.entries)) ::
              s.entries := by
          simp [rrSetIfMem, mapFind, mapSet]
        rw [hstep, hset]
        refine ⟨?_, ?_, ?_⟩
        · show rrWF ((k, some (.node (mlrrGo cfg ⟨[], s.cnt + 1⟩ f (k₂ :: p₂)).2.entries)) ::
              s.entries) = true
          simp only [rrWF, Bool.and_eq_true]
          exact ⟨⟨by simp [hf], by simpa [rrCellWF, RRVal.wfV] using hw₁⟩, hwf⟩
        · show (mlrrGo cfg ⟨[], s.cnt + 1⟩ f (k₂ :: p₂)).2.cnt =
            (rrSize ((k, some (.node (mlrrGo cfg ⟨[], s.cnt + 1⟩ f (k₂ :: p₂)).2.entries)) ::
              s.entries) : Int) + c₀
          rw [rrSize_cons]
          simp only [rrCellSize, RRVal.vsize]
          push_cast
          omega
        · show (mlrrGo cfg ⟨[], s.cnt + 1⟩ f (k₂ :: p₂)).2.cnt ≤
            s.cnt + ((k :: k₂ :: p₂).length : Int)
          omega

theorem mlrrPrune_inv (cfg : RRCfg) (p : List K) :
    ∀ (s : RRState K A) (c₀ : Int),
      rrWF s.entries = true → s.cnt = rrSize s.entries + c₀ →
      s.cnt + p.length ≤ cfg.maxSize → rrPrunable s.entries p = true →
      rrWF (mlrrPrune cfg s p).2.entries = true ∧
      (mlrrPrune cfg s p).2.cnt = rrSize (mlrrPrune cfg s p).2.entries + c₀ := by
  induction p with
  | nil =>
    intro s c₀ hwf hsz hroom hprun
    exact ⟨hwf, hsz⟩
  | cons k p ih =>
    intro s c₀ hwf hsz hroom hprun
    cases p with
    | nil =>
      cases hf : mapFind s.entries k with
      | none =>
        have hstep : (mlrrPrune cfg s [k]).2 = s := by
          simp [mlrrPrune, rrDelete, hf]
        rw [hstep]
        exact ⟨hwf, hsz⟩
      | some c =>
        have hcs : rrCellSize c = 0 := by
          have : rrPrunable s.entries [k] = true := hprun
          simp only [rrPrunable, rrFindPath, hf, beq_iff_eq] at this
          exact this
        have hstep : (mlrrPrune cfg s [k]).2 = ⟨mapErase s.entries k, s.cnt - 1⟩ := by
          simp [mlrrPrune, rrDelete, hf]
        rw [hstep]
        have hse := rrSize_mapErase s.entries k c hwf hf
        refine ⟨rrWF_mapErase s.entries k hwf, ?_⟩
        show s.cnt - 1 = (rrSize (mapErase s.entries k) : Int) + c₀
        omega
    | cons k₂ p₂ =>
      cases hf : mapFind s.entries k with
      | some c =>
        cases c with
        | none =>
          have := rrWF_find s.entries k none hwf hf
          simp [rrCellWF] at this
        | some v =>
          cases v with
          | leaf a =>
            have hstep : (mlrrPrune cfg s (k :: k₂ :: p₂)).2 = s := by
              simp [mlrrPrune, rrLoadOrCall_hit cfg s k (.leaf a) (.node []) hf]
            rw [hstep]
            exact ⟨hwf, hsz⟩
          | node child =>
            have hcwf : rrWF child = true := by
              have := rrWF_find s.entries k (some (.node child)) hwf hf
              simpa [rrCellWF, RRVal.wfV] using this
            have hprun₁ : rrPrunable child (k₂ :: p₂) = true := by
              simpa [rrPrunable, rrFindPath, hf] using hprun
            have hstep : (mlrrPrune cfg s (k :: k₂ :: p₂)).2 =
                ⟨rrSetIfMem s.entries k
                    (some (.node (mlrrPrune cfg ⟨child, s.cnt⟩ (k₂ :: p₂)).2.entries)),
                  (mlrrPrune cfg ⟨child, s.cnt⟩ (k₂ :: p₂)).2.cnt⟩ := by
              simp [mlrrPrune, rrLoadOrCall_hit cfg s k (.node child) (.node []) hf]
            have hIH := ih ⟨child, s.cnt⟩ (c₀ + rrSize s.entries - rrSize child) hcwf
              (show s.cnt = (rrSize child : Int) +
                  (c₀ + rrSize s.entries - rrSize child) by omega)
              (show s.cnt + ((k₂ :: p₂).length : Int) ≤ cfg.maxSize by
                simp at hroom ⊢
                omega)
              hprun₁
            have hw₁ : rrWF (mlrrPrune cfg ⟨child, s.cnt⟩ (k₂ :: p₂)).2.entries = true :=
              hIH.1
            have hs₁ : (mlrrPrune cfg ⟨child, s.cnt⟩ (k₂ :: p₂)).2.cnt =
                (rrSize (mlrrPrune cfg ⟨child, s.cnt⟩ (k₂ :: p₂)).2.entries : Int) +
                  (c₀ + rrSize s.entries - rrSize child) := hIH.2
            have hset := rrSetIfMem_present s.entries k (some (.node child))
              (some (.node (mlrrPrune cfg ⟨child, s.cnt⟩ (k₂ :: p₂)).2.entries)) hf
            have hsz₁ := rrSize_mapSet s.entries k (some (.node child)) hf
              (some (.node (mlrrPrune cfg ⟨child, s.cnt⟩ (k₂ :: p₂)).2.entries))
            simp only [rrCellSize, RRVal.vsize] at hsz₁
            rw [hstep, hset]
            refine ⟨?_, ?_⟩
            · show rrWF (mapSet s.entries k
                  (some (.node (mlrrPrune cfg ⟨child, s.cnt⟩ (k₂ :: p₂)).2.entries))) = true
              exact rrWF_mapSet s.entries k (some (.node child)) _ hwf hf
                (by simpa [rrCellWF, RRVal.wfV] using hw₁)
            · show (mlrrPrune cfg ⟨child, s.cnt⟩ (k₂ :: p₂)).2.cnt =
                (rrSize (mapSet s.entries k
                  (some (.node (mlrrPrune cfg ⟨child, s.cnt⟩ (k₂ :: p₂)).2.entries))) : Int) + c₀
              omega
      | none =>
        have hroom₁ : s.cnt + 1 ≤ cfg.maxSize := by
          simp at hroom
          omega
        have hfr := RRCache.LoadOrCall_fresh_noevict cfg s k (.node []) hf hroom₁
        have hstep : (mlrrPrune cfg s (k :: k₂ :: p₂)).2 =
            ⟨rrSetIfMem ((k, some (.node ([] : RREntries K A))) :: s.entries) k
                (some (.node (mlrrPrune cfg (⟨[], s.cnt + 1⟩ : RRState K A) (k₂ :: p₂)).2.entries)),
              (mlrrPrune cfg (⟨[], s.cnt + 1⟩ : RRState K A) (k₂ :: p₂)).2.cnt⟩ := by
          simp [mlrrPrune, hfr]
        have hIH := ih (⟨[], s.cnt + 1⟩ : RRState K A) (c₀ + rrSize s.entries + 1) (by simp [rrWF])
          (show s.cnt + 1 = (rrSize ([] : RREntries K A) : Int) +
              (c₀ + rrSize s.entries + 1) by simp [rrSize]; omega)
          (show s.cnt + 1 + ((k₂ :: p₂).length : Int) ≤ cfg.maxSize by
            simp at hroom ⊢
            omega)
          (rrPrunable_nil (k₂ :: p₂))
        have hw₁ : rrWF (mlrrPrune cfg (⟨[], s.cnt + 1⟩ : RRState K A) (k₂ :: p₂)).2.entries = true := hIH.1
        have hs₁ : (mlrrPrune cfg (⟨[], s.cnt + 1⟩ : RRState K A) (k₂ :: p₂)).2.cnt =
            (rrSize (mlrrPrune cfg (⟨[], s.cnt + 1⟩ : RRState K A) (k₂ :: p₂)).2.entries : Int) +
              (c₀ + rrSize s.entries + 1) := hIH.2
        have hset : rrSetIfMem ((k, some (.node ([] : RREntries K A))) :: s.entries) k
            (some (.node (mlrrPrune cfg (⟨[], s.cnt + 1⟩ : RRState K A) (k₂ :: p₂)).2.entries)) =
            (k, some (.node (mlrrPrune cfg (⟨[], s.cnt + 1⟩ : RRState K A) (k₂ :: p₂)).2.entries)) ::
              s.entries := by
          simp [rrSetIfMem, mapFind, mapSet]
        rw [hstep, hset]
        refine ⟨?_, ?_⟩
        · show rrWF ((k, some (.node (mlrrPrune cfg (⟨[], s.cnt + 1⟩ : RRState K A) (k₂ :: p₂)).2.entries)) ::
              s.entries) = true
          simp only [rrWF, Bool.and_eq_true]
          exact ⟨⟨by simp [hf], by simpa [rrCellWF, RRVal.wfV] using hw₁⟩, hwf⟩
        · show (mlrrPrune cfg (⟨[], s.cnt + 1⟩ : RRState K A) (k₂ :: p₂)).2.cnt =
            (rrSize ((k, some (.node (mlrrPrune cfg (⟨[], s.cnt + 1⟩ : RRState K A) (k₂ :: p₂)).2.entries)) ::
              s.entries) : Int) + c₀
          rw [rrSize_cons]
          simp only [rrCellSize, RRVal.vsize]
          push_cast
          omega

theorem rrSweep_zero (M t : Int) : ∀ (l : RREntries K A) (s : RRState K A),
    (∀ e ∈ l, (mapFind s.entries e.1).isSome = true) → keysUnique l = true →
    (rrSweep ⟨M, t, fun _ => 0⟩ l s).cnt = max (min s.cnt t) (s.cnt - l.length) := by
  intro l
  induction l with
  | nil =>
    intro s hmem hku
    simp only [rrSweep, List.length_nil, Nat.cast_zero, sub_zero]
    omega
  | cons e l ih =>
    intro s hmem hku
    obtain ⟨k, c⟩ := e
    simp only [keysUnique, Bool.and_eq_true, Option.isNone_iff_eq_none] at hku
    by_cases ht : (0 : Int) < s.cnt - t
    · obtain ⟨c₁, hc₁⟩ := Option.isSome_iff_exists.mp (hmem (k, c) (by simp))
      have hdel : rrDelete s k = ⟨mapErase s.entries k, s.cnt - 1⟩ := by
        simp [rrDelete, hc₁]
      have hmem₁ : ∀ e ∈ l, (mapFind (mapErase s.entries k) e.1).isSome = true := by
        intro e he
        have hne : e.1 ≠ k := by
          intro hek
          have := isSome_find_of_mem l e he
          rw [hek, hku.1] at this
          simp at this
        rw [mapFind_mapErase_ne s.entries k e.1 hne]
        exact hmem e (by simp [he])
      have hrec := ih ⟨mapErase s.entries k, s.cnt - 1⟩ hmem₁ hku.2
      have hstep : rrSweep ⟨M, t, fun _ => 0⟩ ((k, c) :: l) s =
          rrSweep ⟨M, t, fun _ => 0⟩ l ⟨mapErase s.entries k, s.cnt - 1⟩ := by
        simp [rrSweep, ht, hdel]
      rw [hstep, hrec]
      show max (min (s.cnt - 1) t) (s.cnt - 1 - l.length) =
        max (min s.cnt t) (s.cnt - ((k, c) :: l).length)
      simp only [List.length_cons]
      push_cast
      omega
    · have hrec := ih s (fun e he => hmem e (by simp [he])) hku.2
      have hstep : rrSweep ⟨M, t, fun _ => 0⟩ ((k, c) :: l) s =
          rrSweep ⟨M, t, fun _ => 0⟩ l s := by
        simp [rrSweep, ht]
      rw [hstep, hrec]
      simp only [List.length_cons]
      push_cast
      omega

theorem rrEvictLoop_succ (cfg : RRCfg) (n : Nat) (s : RRState K A) :
    rrEvictLoop cfg (n + 1) s =
      if s.cnt > cfg.maxSize then rrEvictLoop cfg n (rrSweep cfg s.entries s) else s :=
  rfl

/-- C4 counterexample: a legal random source may always draw n - 1, in
which case no sweep ever evicts when targetNum is at least 1; with
maxSize 2 and targetNum 1, four inserts leave the shared counter at 4,
which exceeds maxSize plus the one in-flight insert. -/
theorem rr_bounded_size_counterexample :
    (rrRunInserts ⟨2, 1, fun n => n - 1⟩ (⟨[], 0⟩ : RRState Nat Nat)
      [(0, 0), (1, 0), (2, 0), (3, 0)]).cnt = 4 ∧ ¬ ((4 : Int) ≤ 2 + 1) :=
  ⟨rfl, by decide⟩

/-- C4 amended: the eviction pass does run before the insert returns,
but it is best-effort under the 5-sweep bound, so an adversarial legal
random source can leave the counter above maxSize + 1 (see the
counterexample).  With a source that always draws 0, the single
backend's counter is fully controlled: an insert that stays within
maxSize just increments the counter, and an insert that pushes it past
maxSize is followed, before returning, by an eviction pass whose first
sweep already brings the counter down to exactly targetNum, hence at
most maxSize. -/
theorem rr_bounded_size_zero_source (M t : Int) (es : RREntries K A) (cnt : Int)
    (k : K) (v : A)
    (hfind : mapFind es k = none) (hlen : cnt = es.length)
    (hku : keysUnique es = true) (h0t : 0 ≤ t) (htM : t ≤ M) :
    (RRCache.LoadOrCall ⟨M, t, fun _ => 0⟩ (⟨es, cnt⟩ : RRState K A) k (.leaf v)).2.2.cnt =
      (if M < cnt + 1 then t else cnt + 1) ∧
    (RRCache.LoadOrCall ⟨M, t, fun _ => 0⟩ (⟨es, cnt⟩ : RRState K A) k (.leaf v)).2.2.cnt ≤
      M := by
  by_cases hM : M < cnt + 1
  · have hloc : RRCache.LoadOrCall ⟨M, t, fun _ => 0⟩ (⟨es, cnt⟩ : RRState K A) k
        (.leaf v) =
        rrResolveNew ⟨M, t, fun _ => 0⟩ (⟨(k, none) :: es, cnt⟩ : RRState K A) k
          (.leaf v) := by
      simp [RRCache.LoadOrCall, hfind]
    have hsw := rrSweep_zero M t ((k, none) :: es)
      (⟨(k, none) :: es, cnt + 1⟩ : RRState K A)
      (fun e he => isSome_find_of_mem _ e he)
      (by simp only [keysUnique, Bool.and_eq_true]; exact ⟨by simp [hfind], hku⟩)
    have hswc : (rrSweep ⟨M, t, fun _ => 0⟩ ((k, none) :: es)
        (⟨(k, none) :: es, cnt + 1⟩ : RRState K A)).cnt = t := by
      rw [hsw]
      show max (min (cnt + 1) t) (cnt + 1 - (((k, none) :: es).length : Int)) = t
      simp only [List.length_cons]
      push_cast
      omega
    have hloop : rrMaybeEvict ⟨M, t, fun _ => 0⟩
        (⟨(k, none) :: es, cnt + 1⟩ : RRState K A) =
        rrSweep ⟨M, t, fun _ => 0⟩ ((k, none) :: es)
          (⟨(k, none) :: es, cnt + 1⟩ : RRState K A) := by
      rw [rrMaybeEvict, show (5 : Nat) = 4 + 1 from rfl, rrEvictLoop_succ]
      dsimp only
      rw [if_pos (show cnt + 1 > M by omega)]
      rw [show (4 : Nat) = 3 + 1 from rfl, rrEvictLoop_succ]
      dsimp only
      rw [if_neg (by rw [hswc]; omega)]
    have hres : (RRCache.LoadOrCall ⟨M, t, fun _ => 0⟩ (⟨es, cnt⟩ : RRState K A) k
        (.leaf v)).2.2.cnt =
        (rrMaybeEvict ⟨M, t, fun _ => 0⟩
          (⟨(k, none) :: es, cnt + 1⟩ : RRState K A)).cnt := by
      rw [hloc]
      rfl
    rw [hres, hloop, hswc]
    exact ⟨by simp [hM], by omega⟩
  · have hfr := RRCache.LoadOrCall_fresh_noevict ⟨M, t, fun _ => 0⟩
      (⟨es, cnt⟩ : RRState K A) k (.leaf v) hfind (by show cnt + 1 ≤ M; omega)
    rw [hfr]
    exact ⟨by show cnt + 1 = if M < cnt + 1 then t else cnt + 1; simp [hM],
      by show cnt + 1 ≤ M; omega⟩

/-- C4 amended witness: with maxSize 2, targetNum 1 and the zero random
source, inserting a third key into a two-entry backend triggers the
pass and the counter comes back as targetNum = 1, at most maxSize. -/
theorem rr_bounded_size_zero_source_witness :
    (RRCache.LoadOrCall ⟨2, 1, fun _ => 0⟩
        (⟨[(0, some (.leaf 0)), (1, some (.leaf 0))], 2⟩ : RRState Nat Nat) 2
        (.leaf 0)).2.2.cnt = (if (2 : Int) < 2 + 1 then 1 else 2 + 1) ∧
    (RRCache.LoadOrCall ⟨2, 1, fun _ => 0⟩
        (⟨[(0, some (.leaf 0)), (1, some (.leaf 0))], 2⟩ : RRState Nat Nat) 2
        (.leaf 0)).2.2.cnt ≤ 2 :=
  rr_bounded_size_zero_source 2 1 [(0, some (.leaf 0)), (1, some (.leaf 0))] 2 2 0
    rfl (by decide) (by decide) (by decide) (by decide)

/-- C5 counterexample: in a multi-level tree sharing one counter, one
LoadOrCall at the two-component path (0, 1) leaves the shared counter at
2 while only 1 leaf entry is live: the counter also counts the
intermediate node entry, so it does not equal the number of live leaf
entries. -/
theorem rr_shared_counter_counterexample :
    (RRMultiLevel.LoadOrCall ⟨100, 50, fun _ => 0⟩ (⟨none, 0⟩ : RRMultiLevel Nat Nat) 7
        [0, 1]).2.cnt = 2 ∧
    rrLeafCount ((RRMultiLevel.LoadOrCall ⟨100, 50, fun _ => 0⟩
        (⟨none, 0⟩ : RRMultiLevel Nat Nat) 7 [0, 1]).2.root.getD []) = 1 ∧
    (2 : Int) ≠ 1 :=
  ⟨rfl, rfl, by decide⟩

/-- C5 amended: the shared counter equals the total number of live
entries across the whole tree, counting internal node entries as well as
leaves.  Each LoadOrCall whose descent stays within maxSize (so the
best-effort eviction pass does not fire) preserves this equality
together with well-formedness, and so does each Prune that removes an
entry with no live descendants (absent, leaf, or empty node); deleting
an internal node with a nonempty subtree decrements the counter by only
one and breaks the correspondence (see the C6 record). -/
theorem rr_shared_counter_invariant (cfg : RRCfg) (t : RRMultiLevel K A)
    (hwf : rrWF (t.root.getD []) = true)
    (hcnt : t.cnt = (rrSize (t.root.getD []) : Int)) :
    (∀ (f : A) (path : List K), t.cnt + path.length ≤ cfg.maxSize →
      rrWF ((RRMultiLevel.LoadOrCall cfg t f path).2.root.getD []) = true ∧
      (RRMultiLevel.LoadOrCall cfg t f path).2.cnt =
        (rrSize ((RRMultiLevel.LoadOrCall cfg t f path).2.root.getD []) : Int)) ∧
    (∀ path : List K, t.cnt + path.length ≤ cfg.maxSize →
      rrPrunable (t.root.getD []) path = true →
      rrWF ((RRMultiLevel.Prune cfg t path).2.root.getD []) = true ∧
      (RRMultiLevel.Prune cfg t path).2.cnt =
        (rrSize ((RRMultiLevel.Prune cfg t path).2.root.getD []) : Int)) := by
  constructor
  · intro f path hroom
    cases path with
    | nil => exact ⟨hwf, hcnt⟩
    | cons k p =>
      have h := mlrrGo_inv cfg (k :: p) (⟨t.root.getD [], t.cnt⟩ : RRState K A) f 0 hwf
        (show t.cnt = (rrSize (t.root.getD []) : Int) + 0 by omega)
        (show t.cnt + ((k :: p).length : Int) ≤ cfg.maxSize from hroom)
      refine ⟨h.1, ?_⟩
      show (mlrrGo cfg (⟨t.root.getD [], t.cnt⟩ : RRState K A) f (k :: p)).2.cnt =
        (rrSize (mlrrGo cfg (⟨t.root.getD [], t.cnt⟩ : RRState K A) f (k :: p)).2.entries :
          Int)
      have := h.2.1
      omega
  · intro path hroom hprun
    cases path with
    | nil => exact ⟨hwf, hcnt⟩
    | cons k p =>
      have h := mlrrPrune_inv cfg (k :: p) (⟨t.root.getD [], t.cnt⟩ : RRState K A) 0 hwf
        (show t.cnt = (rrSize (t.root.getD []) : Int) + 0 by omega)
        (show t.cnt + ((k :: p).length : Int) ≤ cfg.maxSize from hroom)
        hprun
      refine ⟨h.1, ?_⟩
      show (mlrrPrune cfg (⟨t.root.getD [], t.cnt⟩ : RRState K A) (k :: p)).2.cnt =
        (rrSize (mlrrPrune cfg (⟨t.root.getD [], t.cnt⟩ : RRState K A) (k :: p)).2.entries :
          Int)
      have := h.2
      omega

/-- C5 amended witness: the tree with internal node 0 over leaf 1 and
counter 2 is well formed with counter equal to its total entry count;
the invariant is preserved by further LoadOrCall and Prune operations
within the stated bounds. -/
theorem rr_shared_counter_invariant_witness :
    (∀ (f : Nat) (path : List Nat),
      (2 : Int) + path.length ≤ (100 : Int) →
      rrWF ((RRMultiLevel.LoadOrCall ⟨100, 50, fun _ => 0⟩
          (⟨some [(0, some (.node [(1, some (.leaf 7))]))], 2⟩ : RRMultiLevel Nat Nat) f
          path).2.root.getD []) = true ∧
      (RRMultiLevel.LoadOrCall ⟨100, 50, fun _ => 0⟩
          (⟨some [(0, some (.node [(1, some (.leaf 7))]))], 2⟩ : RRMultiLevel Nat Nat) f
          path).2.cnt =
        (rrSize ((RRMultiLevel.LoadOrCall ⟨100, 50, fun _ => 0⟩
          (⟨some [(0, some (.node [(1, some (.leaf 7))]))], 2⟩ : RRMultiLevel Nat Nat) f
          path).2.root.getD []) : Int)) ∧
    (∀ path : List Nat, (2 : Int) + path.length ≤ (100 : Int) →
      rrPrunable ((⟨some [(0, some (.node [(1, some (.leaf 7))]))], 2⟩ :
          RRMultiLevel Nat Nat).root.getD []) path = true →
      rrWF ((RRMultiLevel.Prune ⟨100, 50, fun _ => 0⟩
          (⟨some [(0, some (.node [(1, some (.leaf 7))]))], 2⟩ : RRMultiLevel Nat Nat)
          path).2.root.getD []) = true ∧
      (RRMultiLevel.Prune ⟨100, 50, fun _ => 0⟩
          (⟨some [(0, some (.node [(1, some (.leaf 7))]))], 2⟩ : RRMultiLevel Nat Nat)
          path).2.cnt =
        (rrSize ((RRMultiLevel.Prune ⟨100, 50, fun _ => 0⟩
          (⟨some [(0, some (.node [(1, some (.leaf 7))]))], 2⟩ : RRMultiLevel Nat Nat)
          path).2.root.getD []) : Int)) :=
  rr_shared_counter_invariant ⟨100, 50, fun _ => 0⟩
    (⟨some [(0, some (.node [(1, some (.leaf 7))]))], 2⟩ : RRMultiLevel Nat Nat)
    (by decide) (by decide)

/-- C6: evaluation at the failing input.  In the multi-level random
replacement tree holding the leaf 7 at path (0, 1) with shared counter
2, pruning the internal node 0 leaves the counter at 1 even though no
entry of the tree is live any more: the entry stored for key 0 is a
Value cell, never a raw RRCache, so the recursive clear branch of
Delete cannot fire and the orphaned subtree is neither cleared nor
discounted. -/
theorem rr_delete_subtree_not_cleared :
    (RRMultiLevel.Prune ⟨100, 50, fun _ => 0⟩
        ((RRMultiLevel.LoadOrCall ⟨100, 50, fun _ => 0⟩
          (⟨none, 0⟩ : RRMultiLevel Nat Nat) 7 [0, 1]).2) [0]).2.cnt = 1 ∧
    rrSize ((RRMultiLevel.Prune ⟨100, 50, fun _ => 0⟩
        ((RRMultiLevel.LoadOrCall ⟨100, 50, fun _ => 0⟩
          (⟨none, 0⟩ : RRMultiLevel Nat Nat) 7 [0, 1]).2) [0]).2.root.getD []) = 0 :=
  ⟨rfl, rfl⟩

end Memocache
